import Mathlib

/-!
Shallow embedding of the cleaning pipeline of `clean.py` (the core of the
fragranceadvisor repository) and proofs of the specification claims about it.

Strings are modelled at the character-list level (`String.data`).  Python's
text primitives (`str.strip`, `str.lower`, `str.isdigit`, regular-expression
splitting and substitution) are modelled for the ASCII range; the few
Unicode-only behaviours (non-ASCII case folding, Unicode whitespace classes,
Unicode digits) are outside the model.  Python `dict`s are modelled as
association lists in insertion order, which is Python's guaranteed iteration
order.  JSON values (the shape of the raw scraped records) are modelled by
the inductive type `JVal`; JSON numbers are modelled as integers (the data's
count/year fields), and Python `float` string coercion is modelled exactly
for plain decimal literals (sign, digits, optional fraction), which are the
inputs on which `float` is exact; exponent forms, `inf`/`nan` and `_` digit
grouping are outside the model and coerce to `none`.
-/

namespace Frag

/-! ### Python string primitives -/

/-- The whitespace characters of Python's `str.strip` / `\s` (ASCII range). -/
def wsChars : List Char := [' ', '\t', '\n', '\r', '\x0b', '\x0c']

def isWsPy (c : Char) : Bool := wsChars.contains c

/-- `str.strip()` from the left. -/
def pyStripL (l : List Char) : List Char := l.dropWhile isWsPy

/-- `str.strip()` from the right. -/
def pyStripR (l : List Char) : List Char := (l.reverse.dropWhile isWsPy).reverse

/-- Python `s.strip()`. -/
def pyStrip (s : String) : String := ⟨pyStripR (pyStripL s.data)⟩

/-- Python `str.lower` on one character (ASCII). -/
def pyLowerCh (c : Char) : Char :=
  if 'A' ≤ c ∧ c ≤ 'Z' then Char.ofNat (c.toNat + 32) else c

/-- Python `str.upper` on one character (ASCII). -/
def pyUpperCh (c : Char) : Char :=
  if 'a' ≤ c ∧ c ≤ 'z' then Char.ofNat (c.toNat - 32) else c

/-- Python `s.lower()`. -/
def pyLower (s : String) : String := ⟨s.data.map pyLowerCh⟩

/-- Replace each maximal whitespace run by a single space:
the substitution part of `WS.sub(" ", s)` where `WS = re.compile(r"\s+")`.
`inRun` records whether the previous character was part of a whitespace run
(whose single replacement space has already been emitted). -/
def collapseWsGo (inRun : Bool) : List Char → List Char
  | [] => []
  | c :: rest =>
    if isWsPy c then (if inRun then [] else [' ']) ++ collapseWsGo true rest
    else c :: collapseWsGo false rest

def collapseWs (l : List Char) : List Char := collapseWsGo false l

/-- `_canon_spaces(s)`: `WS.sub(" ", s).strip()`. -/
def canon_spaces (s : String) : String := pyStrip ⟨collapseWs s.data⟩

/-! ### `_titleish` -/

/-- The small words kept lowercase by `_titleish`. -/
def smallWords : List String := ["de", "du", "des", "and", "of", "the", "a", "an", "pour", "eau"]

/-- The per-segment transform of `_titleish`'s loop body:
`low if low in small else (p[:1].upper() + p[1:])`. -/
def segMapL (p : List Char) : List Char :=
  let low := p.map pyLowerCh
  if smallWords.contains ⟨low⟩ then low
  else
    match p with
    | [] => []
    | c :: rest => pyUpperCh c :: rest

/-- `re.split(r'(\s+|-|/)', s)`: split at each maximal whitespace run and at
each `-` or `/`, keeping the separators (the capture group) in the output;
empty fragments between adjacent separators are kept, as `re.split` does.
`wsMode` tells whether `buf` is an open whitespace-run separator token
(`true`) or an open text fragment (`false`). -/
def reSplitKeepGo (wsMode : Bool) (buf : List Char) : List Char → List String
  | [] => if wsMode then [⟨buf⟩, ""] else [⟨buf⟩]
  | c :: rest =>
    if wsMode then
      if isWsPy c then reSplitKeepGo true (buf ++ [c]) rest
      else if c = '-' ∨ c = '/' then ⟨buf⟩ :: "" :: ⟨[c]⟩ :: reSplitKeepGo false [] rest
      else ⟨buf⟩ :: reSplitKeepGo false [c] rest
    else
      if c = '-' ∨ c = '/' then ⟨buf⟩ :: ⟨[c]⟩ :: reSplitKeepGo false [] rest
      else if isWsPy c then ⟨buf⟩ :: reSplitKeepGo true [c] rest
      else reSplitKeepGo false (buf ++ [c]) rest

def reSplitKeep (l : List Char) : List String := reSplitKeepGo false [] l

/-- `_titleish(s)`: capitalize like a title but keep small words lowercase. -/
def titleish (s : String) : String :=
  if s = "" then s
  else ⟨((reSplitKeep (pyStrip s).data).map fun p => segMapL p.data).flatten⟩

/-- A character at which `re.split(r'(\s+|-|/)', ·)` breaks. -/
def isBoundaryCh (c : Char) : Bool := c = '-' || c = '/' || isWsPy c

/-- Segment-at-a-time restatement of `_titleish`'s body used for the amended
claim C4: walk the characters, buffer the current segment, and at each
boundary character flush the transformed segment and keep the boundary
character unchanged. -/
def titleAmendGo : List Char → List Char → List Char
  | buf, [] => segMapL buf
  | buf, c :: rest =>
    if isBoundaryCh c then segMapL buf ++ c :: titleAmendGo [] rest
    else titleAmendGo (buf ++ [c]) rest

/-- Amended form of claim C4: strip the input, split on whitespace/hyphen/slash
boundaries keeping the boundary characters, replace a segment whose lowercase
form is a small word by that lowercase form, and otherwise uppercase the
segment's first character leaving the rest of the segment in its original
case; empty input is returned unchanged. -/
def titleCase_amended (s : String) : String :=
  if s = "" then s else ⟨titleAmendGo [] (pyStrip s).data⟩

/-- The per-segment transform that claim C4 (and the spec) describes:
lowercase the whole segment, then capitalize its first letter unless the
segment's lowercase form is a small word. -/
def segMapClaimedL (p : List Char) : List Char :=
  let low := p.map pyLowerCh
  if smallWords.contains ⟨low⟩ then low
  else
    match low with
    | [] => []
    | c :: rest => pyUpperCh c :: rest

/-- `titleCase` exactly as claim C4 words it (a second definition following the
spec's words, for comparison with `titleish`): split on whitespace/hyphen/slash
boundaries keeping the boundaries, lowercase each segment, then capitalize the
first letter of each segment unless its lowercase form is a small word. -/
def titleCase_claimed (s : String) : String :=
  if s = "" then s
  else ⟨((reSplitKeep s.data).map fun p => segMapClaimedL p.data).flatten⟩

/-! ### `_clean_list` -/

/-- The normalization applied to each list entry by `_clean_list`:
`_titleish(_canon_spaces(str(x)))` (for a string entry). -/
def note_norm (x : String) : String := titleish (canon_spaces x)

/-- The loop of `_clean_list`; `seen` is the set of lowercased names already
emitted (modelled as a list, membership-only). -/
def clean_list_go : List String → List String → List String
  | _, [] => []
  | seen, x :: rest =>
    let name := note_norm x
    let key := pyLower name
    if name ≠ "" ∧ key ∉ seen then name :: clean_list_go (key :: seen) rest
    else clean_list_go seen rest

/-- `_clean_list(items)`: deduplicate and nice-case a list of strings. -/
def clean_list (items : List String) : List String := clean_list_go [] items

/-! ### `_slugify` -/

/-- A character kept by `_slugify`'s character class `[a-z0-9]` (the input has
already been lowercased when the substitution runs). -/
def isSlugCh (c : Char) : Bool := ('a' ≤ c && c ≤ 'z') || ('0' ≤ c && c ≤ '9')

/-- `re.sub(r"[^a-z0-9]+", "-", ·)`: replace each maximal run of characters
outside `[a-z0-9]` by a single `-`.  `inRun` records whether the previous
character was part of such a run (whose replacement `-` is already emitted). -/
def subDashGo (inRun : Bool) : List Char → List Char
  | [] => []
  | c :: rest =>
    if isSlugCh c then c :: subDashGo false rest
    else (if inRun then [] else ['-']) ++ subDashGo true rest

def subDashRuns (l : List Char) : List Char := subDashGo false l

/-- Python `s.strip("-")`. -/
def stripDash (l : List Char) : List Char :=
  ((l.dropWhile (· = '-')).reverse.dropWhile (· = '-')).reverse

/-- `_slugify(brand, name)`. -/
def slugify (brand name : String) : String :=
  let base := pyLower (pyStrip (brand ++ " " ++ name))
  let s := stripDash (subDashRuns base.data)
  if s = [] then "perfume" else ⟨s⟩

/-! ### JSON values -/

/-- A parsed JSON value, the shape of the raw records `clean` iterates over.
JSON numbers are modelled as integers (see the header comment). -/
inductive JVal where
  | jnull
  | jbool (b : Bool)
  | jint (n : Int)
  | jstr (s : String)
  | jarr (xs : List JVal)
  | jobj (kvs : List (String × JVal))

/-- Python truthiness of a JSON value. -/
def jTruthy : JVal → Bool
  | .jnull => false
  | .jbool b => b
  | .jint n => n != 0
  | .jstr s => s != ""
  | .jarr xs => !xs.isEmpty
  | .jobj kvs => !kvs.isEmpty

/-- Python `a or b` on two values (the right operand when the left is falsy). -/
def pyOr2 (a b : JVal) : JVal := if jTruthy a then a else b

/-- `p.get(k)`, with Python's `None` for an absent key. -/
def jgetOr (p : List (String × JVal)) (k : String) : JVal :=
  (p.lookup k).getD .jnull

/-- `p.get(k1, p.get(k2, dflt))`: presence-based two-key fallback. -/
def jget2 (p : List (String × JVal)) (k1 k2 : String) (dflt : JVal) : JVal :=
  match p.lookup k1 with
  | some v => v
  | none =>
    match p.lookup k2 with
    | some v => v
    | none => dflt

/-- The apostrophe character (written by code point to keep it out of source
literals). -/
def quoteCh : Char := Char.ofNat 39

/-- The double-quote character. -/
def dquoteCh : Char := Char.ofNat 34

/-- The backslash character. -/
def backslashCh : Char := Char.ofNat 92

/-- Python `repr` of a string, simplified: always single-quoted; Python's
escaping and quote-choice rules for exotic contents are not modelled. -/
def pyQuote (s : String) : String := ⟨quoteCh :: (s.data ++ [quoteCh])⟩

mutual

/-- Python `repr` of a JSON value (used by `str` inside containers). -/
def pyRepr : JVal → String
  | .jnull => "None"
  | .jbool true => "True"
  | .jbool false => "False"
  | .jint n => toString n
  | .jstr s => pyQuote s
  | .jarr xs => "[" ++ pyReprList xs ++ "]"
  | .jobj kvs => "\x7b" ++ pyReprObj kvs ++ "\x7d"

def pyReprList : List JVal → String
  | [] => ""
  | [x] => pyRepr x
  | x :: y :: rest => pyRepr x ++ ", " ++ pyReprList (y :: rest)

def pyReprObj : List (String × JVal) → String
  | [] => ""
  | [(k, v)] => pyQuote k ++ ": " ++ pyRepr v
  | (k, v) :: kv :: rest => pyQuote k ++ ": " ++ pyRepr v ++ ", " ++ pyReprObj (kv :: rest)

end

/-- Python `str` of a JSON value (strings are rendered bare at top level). -/
def pyStr : JVal → String
  | .jstr s => s
  | v => pyRepr v

/-! ### `_to_int` -/

def isDigitCh (c : Char) : Bool := '0' ≤ c && c ≤ '9'

/-- The numeric value of a digit string (`int` on an all-digits string). -/
def digitsToNat (l : List Char) : Nat :=
  l.foldl (fun acc c => acc * 10 + (c.toNat - 48)) 0

/-- Parse a plain decimal literal the way Python `float` reads one:
optional sign, integer digits, optional `.` and fraction digits (at least one
digit overall).  Returns (negative?, integer digits, fraction digits).
Exponent forms, `inf`/`nan` and `_` digit grouping are outside the model and
return `none`. -/
def parseFloatDec (l : List Char) : Option (Bool × List Char × List Char) :=
  let signed : Bool × List Char :=
    match l with
    | '-' :: r => (true, r)
    | '+' :: r => (false, r)
    | _ => (false, l)
  let neg := signed.1
  let ip := signed.2.takeWhile isDigitCh
  let r1 := signed.2.dropWhile isDigitCh
  match r1 with
  | [] => if ip = [] then none else some (neg, ip, [])
  | '.' :: r2 =>
    let fp := r2.takeWhile isDigitCh
    let r3 := r2.dropWhile isDigitCh
    if r3 = [] ∧ (ip ≠ [] ∨ fp ≠ []) then some (neg, ip, fp) else none
  | _ => none

/-- `_to_int(v)` (with `none` standing for Python's `None`, both as the
argument and as the result): `str(v).strip().replace(",", "")`, then an
`int` parse if the string is all digits, else a `float` parse kept only when
the value has no fractional part; anything else is `None`. -/
def to_int (v : Option JVal) : Option Int :=
  match v with
  | none => none
  | some .jnull => none
  | some w =>
    let cs := (pyStrip (pyStr w)).data.filter (· ≠ ',')
    if cs ≠ [] ∧ cs.all isDigitCh then some (digitsToNat cs : Int)
    else
      match parseFloatDec cs with
      | some (neg, ip, fp) =>
        if fp.all (· = '0') then
          let n : Int := (digitsToNat ip : Int)
          some (if neg then -n else n)
        else none
      | none => none

/-! ### `_normalize_counts` -/

/-- The `LON_KEYS` alias table of `clean.py`. -/
def LON_KEYS : List (String × String) :=
  [("very long lasting", "very long lasting"),
   ("very_long_lasting", "very long lasting"),
   ("verylonglasting", "very long lasting"),
   ("long lasting", "long lasting"),
   ("long_lasting", "long lasting"),
   ("longlasting", "long lasting"),
   ("moderate", "moderate"),
   ("weak", "weak"),
   ("poor", "poor")]

/-- Key normalization of `_normalize_counts`: `lk = str(k).strip().lower()`,
`lk2 = lk.replace("_","")`, then `key_map.get(lk) or key_map.get(lk2)`
(the table's values are non-empty, so `or` is option fallback). -/
def normKeyLon (k : String) : Option String :=
  let lk := pyLower (pyStrip k)
  let lk2 : String := ⟨lk.data.filter (· ≠ '_')⟩
  match LON_KEYS.lookup lk with
  | some nk => some nk
  | none => LON_KEYS.lookup lk2

/-- The count coercion of `_normalize_counts`'s loop body:
`0 if num is None else num` (the pre-strip of string values is absorbed by
`_to_int`'s own strip). -/
def coerceCount (v : JVal) : Int := (to_int (some v)).getD 0

/-- `out[nk] = num` on a dict modelled as an insertion-ordered association
list: replace in place when the key exists, append otherwise. -/
def updateAssoc : List (String × Int) → String → Int → List (String × Int)
  | [], k, v => [(k, v)]
  | (k0, v0) :: rest, k, v =>
    if k0 = k then (k0, v) :: rest else (k0, v0) :: updateAssoc rest k v

def normalize_counts_go : List (String × Int) → List (String × JVal) → List (String × Int)
  | out, [] => out
  | out, (k, v) :: rest =>
    match normKeyLon k with
    | none => normalize_counts_go out rest
    | some nk => normalize_counts_go (updateAssoc out nk (coerceCount v)) rest

/-- `_normalize_counts(d, LON_KEYS)`. -/
def normalize_counts (d : List (String × JVal)) : List (String × Int) :=
  normalize_counts_go [] d

/-! ### regex splitters -/

/-- `re.split` for a pattern of the form `\s*SEP\s*` with `SEP` a character
class: at each separator character, the whitespace run immediately before it
(stripped from the accumulated `buf`) and immediately after it (skipped while
`skip` is set) is consumed with the separator. -/
def splitSepGo (isSep : Char → Bool) : Bool → List Char → List Char → List String
  | _, buf, [] => [⟨buf⟩]
  | skip, buf, c :: rest =>
    if skip ∧ isWsPy c then splitSepGo isSep true buf rest
    else if isSep c then ⟨pyStripR buf⟩ :: splitSepGo isSep true [] rest
    else splitSepGo isSep false (buf ++ [c]) rest

def splitSepWs (isSep : Char → Bool) (l : List Char) : List String :=
  splitSepGo isSep false [] l

/-- `part.split(":", 1)` when `":" in part`: the text before the first colon
and the text after it. -/
def splitColon1 (s : String) : String × String :=
  (⟨s.data.takeWhile (· ≠ ':')⟩, ⟨(s.data.dropWhile (· ≠ ':')).drop 1⟩)

/-- First occurrence of `sep` (non-empty) in `l`: the text before it and the
text after it, like Python `l.split(sep, 1)` when it splits. -/
def findSplit (sep : List Char) : List Char → Option (List Char × List Char)
  | [] => none
  | c :: rest =>
    if sep.isPrefixOf (c :: rest) then some ([], (c :: rest).drop sep.length)
    else
      match findSplit sep rest with
      | some (pre, post) => some (c :: pre, post)
      | none => none

/-! ### `_parse_notes` and `_parse_main_accords` -/

structure Notes where
  top : List String
  middle : List String
  base : List String
deriving DecidableEq

def emptyNotes : Notes := ⟨[], [], []⟩

/-- `_clean_list` applied to a list of arbitrary values (`str(x)` per item). -/
def clean_listJ (xs : List JVal) : List String := clean_list (xs.map pyStr)

/-- `arr if isinstance(arr, list) else []`. -/
def listOrEmpty : JVal → List JVal
  | .jarr xs => xs
  | _ => []

/-- The serialized-JSON shape test of the string branches:
`(s.startswith("{") and s.endswith("}")) or (s.startswith("[") and s.endswith("]"))`. -/
def jsonLikeShape (s : String) : Bool :=
  (s.data.head? == some '{' && s.data.getLast? == some '}') ||
  (s.data.head? == some '[' && s.data.getLast? == some ']')

/-- The two character replacements `blob.replace(r"\'", "'").replace(r'\"', '"')`,
fused into one left-to-right pass (the two passes cannot interact: replacing
an escaped single quote never creates an escaped double quote). -/
def replaceEsc : List Char → List Char
  | [] => []
  | [a] => [a]
  | a :: b :: rest =>
    if a = backslashCh ∧ (b = quoteCh ∨ b = dquoteCh) then b :: replaceEsc rest
    else a :: replaceEsc (b :: rest)

/-- All elements of `parts` as strings, or `none` (Python `"".join` raises a
`TypeError`, caught by the caller, when an element is not a string). -/
def allStrs : List JVal → Option (List String)
  | [] => some []
  | .jstr s :: rest => (allStrs rest).map (s :: ·)
  | _ => none

/-- `_maybe_parse_embedded_json_from_list(parts)`, with the JSON decoder
passed in as `jp` (`json.loads` restricted to the strings it accepts; the
claims proved below hold for every decoder). -/
def maybe_parse_embedded (jp : String → Option JVal) (parts : List JVal) : Option JVal :=
  match allStrs parts with
  | none => none
  | some ss =>
    let b1 := (pyStrip (String.join ss)).data
    let b2 :=
      if (b1.head? == some dquoteCh && b1.getLast? == some dquoteCh) ||
         (b1.head? == some quoteCh && b1.getLast? == some quoteCh) then
        (b1.drop 1).dropLast
      else b1
    let b3 := replaceEsc b2
    if b3.count '{' = b3.count '}' ∧ b3.count '[' = b3.count ']' then
      match jp ⟨b3⟩ with
      | some (.jobj kvs) => some (.jobj kvs)
      | some (.jarr xs) => some (.jarr xs)
      | _ => none
    else none

/-- `cat.startswith(("top", "head"))` on the stripped, lowercased category. -/
def catIsTop (cat : String) : Bool :=
  "top".data.isPrefixOf cat.data || "head".data.isPrefixOf cat.data

/-- `cat.startswith(("base", "drydown"))`. -/
def catIsBase (cat : String) : Bool :=
  "base".data.isPrefixOf cat.data || "drydown".data.isPrefixOf cat.data

/-- The comma-separated items of one `category: items` segment, filtered and
cleaned: `_clean_list([i for i in ITEM_SEP.split(items) if i.strip()])`. -/
def segItems (items : String) : List String :=
  clean_list ((splitSepWs (· = ',') items.data).filter fun i => pyStrip i ≠ "")

/-- The loop of the categorized-string branch of `_parse_notes`: each part
containing a colon assigns (not appends) its cleaned items to the bucket its
category prefix selects. -/
def parse_notes_cat_go : Notes → List String → Notes
  | acc, [] => acc
  | acc, part :: rest =>
    if ':' ∈ part.data then
      let cat := pyLower (pyStrip (splitColon1 part).1)
      let cleaned := segItems (splitColon1 part).2
      let acc' :=
        if catIsTop cat then { acc with top := cleaned }
        else if catIsBase cat then { acc with base := cleaned }
        else { acc with middle := cleaned }
      parse_notes_cat_go acc' rest
    else parse_notes_cat_go acc rest

/-- The categorized-string / flat-string handling of `_parse_notes` for a
stripped, non-empty string that was not decoded as JSON. -/
def parseNotesCatFlat (s : String) : Notes :=
  if ':' ∈ s.data ∧ '|' ∈ s.data then
    parse_notes_cat_go emptyNotes (splitSepWs (· = '|') s.data)
  else
    { emptyNotes with
      middle := clean_list ((splitSepWs (· = ',') s.data).filter fun i => pyStrip i ≠ "") }

/-- One layer of `_parse_notes(raw)`, with the two `parse the parsed value
again` recursion sites abstracted as `recurse`. -/
def parse_notes_step (jp : String → Option JVal) (recurse : JVal → Notes) (raw : JVal) :
    Notes :=
  match raw with
  | .jobj kvs =>
    let top := pyOr2 (jgetOr kvs "top") (pyOr2 (jgetOr kvs "head") (.jarr []))
    let mid := pyOr2 (jgetOr kvs "middle")
        (pyOr2 (jgetOr kvs "heart") (pyOr2 (jgetOr kvs "general") (.jarr [])))
    let base := pyOr2 (jgetOr kvs "base") (pyOr2 (jgetOr kvs "drydown") (.jarr []))
    ⟨clean_listJ (listOrEmpty top), clean_listJ (listOrEmpty mid),
      clean_listJ (listOrEmpty base)⟩
  | .jarr xs =>
    match maybe_parse_embedded jp xs with
    | some (.jobj kvs) => recurse (.jobj kvs)
    | some (.jarr ys) => ⟨[], clean_listJ ys, []⟩
    | some _ => ⟨[], clean_listJ xs, []⟩
    | none => ⟨[], clean_listJ xs, []⟩
  | .jstr s0 =>
    let s := pyStrip s0
    if s = "" then emptyNotes
    else
      match (if jsonLikeShape s then jp s else none) with
      | some v => recurse v
      | none => parseNotesCatFlat s
  | _ => emptyNotes

/-- `_parse_notes(raw)`.  `jp` stands for `json.loads` (restricted to the
values this model represents; the claims proved below hold for every
decoder).  `fuel` bounds the `parse, then re-parse the parsed result`
recursion depth, which for a real decoder is bounded by the nesting depth of
the input (Python's behaviour at its interpreter recursion limit is not
modelled). -/
def parse_notes (jp : String → Option JVal) : Nat → JVal → Notes
  | 0 => parse_notes_step jp fun _ => emptyNotes
  | fuel + 1 => parse_notes_step jp (parse_notes jp fuel)

/-- One layer of `_parse_main_accords(raw)`, with the embedded-JSON recursion
site abstracted as `recurse`. -/
def parse_main_accords_step (jp : String → Option JVal) (recurse : JVal → List String)
    (raw : JVal) : List String :=
  match raw with
  | .jobj kvs =>
    let arr := pyOr2 (jgetOr kvs "main_accords") (pyOr2 (jgetOr kvs "accords") (.jarr []))
    clean_listJ (listOrEmpty arr)
  | .jarr xs => clean_listJ xs
  | .jstr s0 =>
    let s := pyStrip s0
    if s = "" then []
    else
      match (if jsonLikeShape s then jp s else none) with
      | some v => recurse v
      | none =>
        clean_list ((splitSepWs (fun c => c = '|' || c = ',') s.data).filter
          fun p => pyStrip p ≠ "")
  | _ => []

/-- `_parse_main_accords(raw)`; parameters as in `parse_notes`. -/
def parse_main_accords (jp : String → Option JVal) : Nat → JVal → List String
  | 0 => parse_main_accords_step jp fun _ => []
  | fuel + 1 => parse_main_accords_step jp (parse_main_accords jp fuel)

/-- `_json_or_dict(v)` (the longevity sub-structure). -/
def json_or_dict (jp : String → Option JVal) : Option JVal → List (String × JVal)
  | some (.jobj kvs) => kvs
  | some (.jstr s) =>
    if pyStrip s ≠ "" then
      match jp s with
      | some (.jobj kvs) => kvs
      | _ => []
    else []
  | _ => []

/-! ### field extractors -/

/-- `s.replace("-", " ")`. -/
def replaceDashSpace (s : String) : String :=
  ⟨s.data.map fun c => if c = '-' then ' ' else c⟩

/-- `SLUG_ID_TAIL.sub("", seg)` with `SLUG_ID_TAIL = re.compile(r"-\d+\.html?$", re.IGNORECASE)`:
strip a trailing `-<digits>.htm` or `-<digits>.html` (case-insensitive). -/
def stripSlugIdTail (l : List Char) : List Char :=
  let r := l.reverse
  let r1 :=
    match r with
    | c :: rest => if c = 'l' ∨ c = 'L' then rest else r
    | [] => r
  match r1 with
  | m :: t :: h :: rest =>
    if (m = 'm' ∨ m = 'M') ∧ (t = 't' ∨ t = 'T') ∧ (h = 'h' ∨ h = 'H') then
      match rest with
      | dot :: rest2 =>
        if dot = '.' then
          let ds := rest2.takeWhile isDigitCh
          let rest3 := rest2.dropWhile isDigitCh
          if ds ≠ [] ∧ rest3.head? = some '-' then (rest3.drop 1).reverse
          else l
        else l
      | [] => l
    else l
  | _ => l

/-- `_extract_name_from_url(url)`. -/
def extract_name_from_url (url : String) : String :=
  if url = "" then ""
  else
    let path : List Char :=
      match findSplit "://".data url.data with
      | some (_, post) => post
      | none => url.data
    let parts := (⟨path⟩ : String).splitOn "/"
    let segO : Option String :=
      match parts.getLast? with
      | some lastp => if lastp ≠ "" then some lastp else parts.dropLast.getLast?
      | none => none
    match segO with
    | none => ""
    | some seg => titleish (canon_spaces (replaceDashSpace ⟨stripSlugIdTail seg.data⟩))

/-- The string-valued key priority list of `_best_name`. -/
def nameKeys : List String :=
  ["name", "title", "display_name", "perfume", "fragrance", "product_name",
   "full_name", "name_en", "h1", "page_title"]

def urlKeys : List String := ["url", "link", "page", "source_url"]

/-- The first key of `ks` whose value in `p` is a string with non-empty strip. -/
def firstStrKey (p : List (String × JVal)) : List String → Option String
  | [] => none
  | k :: rest =>
    match p.lookup k with
    | some (.jstr v) => if pyStrip v ≠ "" then some v else firstStrKey p rest
    | _ => firstStrKey p rest

/-- The URL-fallback loop at the end of `_best_name`. -/
def best_name_url (p : List (String × JVal)) : List String → String
  | [] => ""
  | k :: rest =>
    match p.lookup k with
    | some (.jstr v) =>
      if pyStrip v ≠ "" then
        let cand := extract_name_from_url v
        if cand ≠ "" then cand else best_name_url p rest
      else best_name_url p rest
    | _ => best_name_url p rest

/-- The slug fallback of `_best_name`: `p.get("slug") or p.get("name_slug")`. -/
def best_name_slug (p : List (String × JVal)) : String :=
  match pyOr2 (jgetOr p "slug") (jgetOr p "name_slug") with
  | .jstr sv =>
    if pyStrip sv ≠ "" then titleish (canon_spaces (replaceDashSpace sv))
    else best_name_url p urlKeys
  | _ => best_name_url p urlKeys

/-- `_best_name(p)`. -/
def best_name (p : List (String × JVal)) : String :=
  match firstStrKey p nameKeys with
  | some v => titleish (canon_spaces v)
  | none =>
    match p.lookup "name" with
    | some (.jobj nm) =>
      match nm.lookup "title" with
      | some (.jstr t) =>
        if pyStrip t ≠ "" then titleish (canon_spaces t) else best_name_slug p
      | _ => best_name_slug p
    | _ => best_name_slug p

/-- The `BRAND_ALIASES` table of `clean.py`. -/
def BRAND_ALIASES : List (String × String) := [("18 21 man made", "18.21 Man Made")]

/-- The shared tail of both branches of `_best_brand`: canonicalize, look the
lowercased form up in the alias table (whose values are non-empty, so the
truthiness test is presence), else title-case. -/
def brandFix (raw : String) : String :=
  match BRAND_ALIASES.lookup (pyLower (canon_spaces raw)) with
  | some fixed => fixed
  | none => titleish (canon_spaces raw)

/-- The URL branch of `_best_brand`. -/
def best_brand_url (p : List (String × JVal)) : String :=
  match pyOr2 (jgetOr p "url") (pyOr2 (jgetOr p "link") (.jstr "")) with
  | .jstr u =>
    match findSplit "/perfume/".data u.data with
    | some (_, tl) => brandFix (replaceDashSpace ⟨tl.takeWhile (· ≠ '/')⟩)
    | none => ""
  | _ => ""

/-- `_best_brand(p)`. -/
def best_brand (p : List (String × JVal)) : String :=
  match p.lookup "brand" with
  | some (.jstr v) => if pyStrip v ≠ "" then brandFix v else best_brand_url p
  | _ => best_brand_url p

/-- The `images`-list fallback of `_best_image`. -/
def best_image_list (p : List (String × JVal)) : Option String :=
  match p.lookup "images" with
  | some (.jarr (first :: _)) =>
    match first with
    | .jstr s => if pyStrip s ≠ "" then some (pyStrip s) else none
    | .jobj kv =>
      match firstStrKey kv ["url", "src", "image"] with
      | some s => some (pyStrip s)
      | none => none
    | _ => none
  | _ => none

/-- The nested `name.image` fallback of `_best_image`. -/
def best_image_name (p : List (String × JVal)) : Option String :=
  match p.lookup "name" with
  | some (.jobj nm) =>
    match nm.lookup "image" with
    | some (.jstr img) => if pyStrip img ≠ "" then some (pyStrip img) else best_image_list p
    | _ => best_image_list p
  | _ => best_image_list p

/-- `_best_image(p)`. -/
def best_image (p : List (String × JVal)) : Option String :=
  match p.lookup "image" with
  | some (.jstr v) =>
    if pyStrip v ≠ "" then some (pyStrip v)
    else
      match p.lookup "image_url" with
      | some (.jstr w) => if pyStrip w ≠ "" then some (pyStrip w) else best_image_name p
      | _ => best_image_name p
  | _ =>
    match p.lookup "image_url" with
    | some (.jstr w) => if pyStrip w ≠ "" then some (pyStrip w) else best_image_name p
    | _ => best_image_name p

/-! ### `_stable_id` (SHA-1) -/

def rotl32 (n x : Nat) : Nat := ((x <<< n) ||| (x >>> (32 - n))) % 4294967296

/-- UTF-8 encoding of one character. -/
def utf8Bytes (c : Char) : List Nat :=
  let n := c.toNat
  if n < 128 then [n]
  else if n < 2048 then [192 + n / 64, 128 + n % 64]
  else if n < 65536 then [224 + n / 4096, 128 + (n / 64) % 64, 128 + n % 64]
  else [240 + n / 262144, 128 + (n / 4096) % 64, 128 + (n / 64) % 64, 128 + n % 64]

/-- `s.encode("utf-8")` as a byte list. -/
def strUtf8 (s : String) : List Nat := (s.data.map utf8Bytes).flatten

/-- A 64-bit value as 8 big-endian bytes. -/
def be64 (n : Nat) : List Nat :=
  [(n >>> 56) % 256, (n >>> 48) % 256, (n >>> 40) % 256, (n >>> 32) % 256,
   (n >>> 24) % 256, (n >>> 16) % 256, (n >>> 8) % 256, n % 256]

/-- SHA-1 message padding. -/
def sha1Pad (msg : List Nat) : List Nat :=
  msg ++ 128 :: (List.replicate ((119 - msg.length % 64) % 64) 0 ++ be64 (8 * msg.length))

/-- Split into 64-byte blocks (`buf` accumulates the open block; padded SHA-1
input is always a whole number of blocks). -/
def toBlocksGo (buf : List Nat) : List Nat → List (List Nat)
  | [] => if buf.isEmpty then [] else [buf]
  | b :: rest =>
    if buf.length = 63 then (buf ++ [b]) :: toBlocksGo [] rest
    else toBlocksGo (buf ++ [b]) rest

def toBlocks (l : List Nat) : List (List Nat) := toBlocksGo [] l

def toWords : List Nat → List Nat
  | b0 :: b1 :: b2 :: b3 :: rest => (((b0 * 256 + b1) * 256 + b2) * 256 + b3) :: toWords rest
  | _ => []

/-- Extend the 16 block words to 80 schedule words. -/
def extendW : List Nat → Nat → List Nat
  | ws, 0 => ws
  | ws, k + 1 =>
    let n := ws.length
    extendW
      (ws ++ [rotl32 1 ((ws.getD (n - 3) 0 ^^^ ws.getD (n - 8) 0) ^^^
        (ws.getD (n - 14) 0 ^^^ ws.getD (n - 16) 0))]) k

def sha1F (i b c d : Nat) : Nat :=
  if i < 20 then (b &&& c) ||| ((b ^^^ 4294967295) &&& d)
  else if i < 40 then (b ^^^ c) ^^^ d
  else if i < 60 then ((b &&& c) ||| (b &&& d)) ||| (c &&& d)
  else (b ^^^ c) ^^^ d

def sha1K (i : Nat) : Nat :=
  if i < 20 then 1518500249
  else if i < 40 then 1859775393
  else if i < 60 then 2400959708
  else 3395469782

def sha1Rounds : Nat → List Nat → Nat × Nat × Nat × Nat × Nat → Nat × Nat × Nat × Nat × Nat
  | _, [], st => st
  | i, w :: ws, (a, b, c, d, e) =>
    let temp := (rotl32 5 a + sha1F i b c d + e + sha1K i + w) % 4294967296
    sha1Rounds (i + 1) ws (temp, a, rotl32 30 b, c, d)

def sha1Chunk (st : Nat × Nat × Nat × Nat × Nat) (block : List Nat) :
    Nat × Nat × Nat × Nat × Nat :=
  let (h0, h1, h2, h3, h4) := st
  let (a, b, c, d, e) := sha1Rounds 0 (extendW (toWords block) 64) (h0, h1, h2, h3, h4)
  ((h0 + a) % 4294967296, (h1 + b) % 4294967296, (h2 + c) % 4294967296,
   (h3 + d) % 4294967296, (h4 + e) % 4294967296)

/-- The five 32-bit state words of the SHA-1 digest of `msg`. -/
def sha1Words (msg : List Nat) : List Nat :=
  let st := (toBlocks (sha1Pad msg)).foldl sha1Chunk
    (1732584193, 4023233417, 2562383102, 271733878, 3285377520)
  [st.1, st.2.1, st.2.2.1, st.2.2.2.1, st.2.2.2.2]

def hexDigits : List Char := "0123456789abcdef".data

def hexCh (n : Nat) : Char := hexDigits.getD n '0'

/-- A 32-bit word as 8 lowercase hex characters. -/
def wordHex (w : Nat) : List Char :=
  [hexCh ((w >>> 28) % 16), hexCh ((w >>> 24) % 16), hexCh ((w >>> 20) % 16),
   hexCh ((w >>> 16) % 16), hexCh ((w >>> 12) % 16), hexCh ((w >>> 8) % 16),
   hexCh ((w >>> 4) % 16), hexCh (w % 16)]

/-- `hashlib.sha1(msg).hexdigest()` as a character list. -/
def sha1Hex (msg : List Nat) : List Char := ((sha1Words msg).map wordHex).flatten

/-- The `{year or ''}` field of `_stable_id`'s format string: Python's `or`
takes the right operand when `year` is falsy, and both `None` and `0` are
falsy integers-or-None here. -/
def yearStr : Option Int → String
  | none => ""
  | some y => if y = 0 then "" else toString y

/-- `_stable_id(brand, name, year)`. -/
def stable_id (brand name : String) (year : Option Int) : String :=
  ⟨(sha1Hex (strUtf8 (brand ++ "::" ++ name ++ "::" ++ yearStr year))).take 16⟩

/-! ### the record synthesizer `clean` -/

structure Record where
  id : String
  slug : String
  name : String
  brand : String
  year : Option Int
  image : Option String
  main_accords : List String
  notes : Notes
  longevity : List (String × Int)
  popularity : Int

/-- One iteration of `clean`'s loop on a raw record `p`: `none` when the
record is skipped by the inclusion policy, `some` of the canonical record
otherwise. -/
def cleanStep (jp : String → Option JVal) (fuel : Nat) (keep_unnamed : Bool)
    (p : List (String × JVal)) : Option Record :=
  let name := best_name p
  let brand := best_brand p
  let year := to_int (p.lookup "year")
  let notes := parse_notes jp fuel (jget2 p "notes" "accords" (.jarr []))
  let main_accords := parse_main_accords jp fuel (jget2 p "main_accords" "accords" (.jarr []))
  let longevity := normalize_counts (json_or_dict jp (p.lookup "longevity"))
  let rec' : Record :=
    { id := stable_id brand name year
      slug := slugify brand name
      name := name
      brand := brand
      year := year
      image := best_image p
      main_accords := main_accords
      notes := notes
      longevity := longevity
      popularity := (longevity.map (·.2)).sum }
  if ¬ keep_unnamed ∧ name = "" then
    if brand = "" ∧ ¬ (notes.top ≠ [] ∨ notes.middle ≠ [] ∨ notes.base ≠ []) ∧
        main_accords = [] then none
    else some rec'
  else some rec'

/-- The full cleaning pass: the kept records in input order. -/
def clean (jp : String → Option JVal) (fuel : Nat) (keep_unnamed : Bool)
    (data : List (List (String × JVal))) : List Record :=
  data.filterMap (cleanStep jp fuel keep_unnamed)

/-! ### definitions for the amended claim C5 -/

/-- The items text of the last `category: items` part (among the `|`-separated
parts that contain a colon) whose stripped, lowercased category satisfies
`sel`. -/
def lastSegFor (sel : String → Bool) (parts : List String) : Option String :=
  (parts.filterMap fun part =>
    if ':' ∈ part.data then
      (if sel (pyLower (pyStrip (splitColon1 part).1)) then some (splitColon1 part).2 else none)
    else none).getLast?

/-- The bucket contents the amended claim C5 predicts for a categorized notes
string: the cleaned comma-separated items of the last segment classified to
the bucket, empty when no segment is. -/
def bucketLast (sel : String → Bool) (s : String) : List String :=
  (lastSegFor sel (splitSepWs (· = '|') s.data)).elim [] segItems

/-- Bucket selectors mirroring `_parse_notes`'s `if`/`elif`/`else` category
classification. -/
def selTop (cat : String) : Bool := catIsTop cat

def selBase (cat : String) : Bool := !catIsTop cat && catIsBase cat

def selMid (cat : String) : Bool := !catIsTop cat && !catIsBase cat

/-- All entries of all buckets are non-empty (used by claim C10). -/
def notesNe (n : Notes) : Prop :=
  (∀ a ∈ n.top, a ≠ "") ∧ (∀ a ∈ n.middle, a ≠ "") ∧ (∀ a ∈ n.base, a ≠ "")

/-! ## Theorems -/

/-! ### `_clean_list`: claims C6 and C10 -/

theorem clean_list_go_ne (xs : List String) : ∀ (seen : List String) (a : String),
    a ∈ clean_list_go seen xs → a ≠ "" := by
  induction xs with
  | nil => intro seen a h; simp [clean_list_go] at h
  | cons x rest ih =>
    intro seen a h
    simp only [clean_list_go] at h
    split at h
    case isTrue hc =>
      rcases List.mem_cons.mp h with h | h
      · exact h ▸ hc.1
      · exact ih _ _ h
    case isFalse hc => exact ih _ _ h

theorem clean_list_go_key (xs : List String) : ∀ (seen : List String) (a : String),
    a ∈ clean_list_go seen xs → pyLower a ∉ seen := by
  induction xs with
  | nil => intro seen a h; simp [clean_list_go] at h
  | cons x rest ih =>
    intro seen a h
    simp only [clean_list_go] at h
    split at h
    case isTrue hc =>
      rcases List.mem_cons.mp h with h | h
      · exact h ▸ hc.2
      · exact fun hmem => (ih _ _ h) (List.mem_cons_of_mem _ hmem)
    case isFalse hc => exact ih _ _ h

theorem clean_list_go_pairwise (xs : List String) : ∀ seen : List String,
    (clean_list_go seen xs).Pairwise fun a b => pyLower a ≠ pyLower b := by
  induction xs with
  | nil => intro seen; simp [clean_list_go]
  | cons x rest ih =>
    intro seen
    simp only [clean_list_go]
    split
    · refine List.pairwise_cons.mpr ⟨fun b hb => ?_, ih _⟩
      have := clean_list_go_key rest _ b hb
      exact fun hEq => this (hEq ▸ List.mem_cons_self _ _)
    · exact ih _

theorem clean_list_go_sublist (xs : List String) : ∀ seen : List String,
    (clean_list_go seen xs).Sublist (xs.map note_norm) := by
  induction xs with
  | nil => intro seen; simp [clean_list_go]
  | cons x rest ih =>
    intro seen
    simp only [clean_list_go, List.map_cons]
    split
    · exact (ih _).cons₂ _
    · exact (ih _).cons _

theorem clean_list_go_find (xs : List String) : ∀ (seen : List String) (k : String),
    k ∉ seen →
    (clean_list_go seen xs).find? (fun a => pyLower a == k) =
      ((xs.map note_norm).filter (· != "")).find? (fun a => pyLower a == k) := by
  induction xs with
  | nil => intro seen k _; simp [clean_list_go]
  | cons x rest ih =>
    intro seen k hk
    simp only [clean_list_go, List.map_cons, List.filter_cons]
    split
    case isTrue hc =>
      rw [if_pos (by simpa using hc.1)]
      by_cases hkey : pyLower (note_norm x) = k
      · rw [List.find?_cons_of_pos _ (by simpa using hkey),
          List.find?_cons_of_pos _ (by simpa using hkey)]
      · rw [List.find?_cons_of_neg _ (by simpa using hkey),
          List.find?_cons_of_neg _ (by simpa using hkey)]
        refine ih _ _ ?_
        intro hmem
        rcases List.mem_cons.mp hmem with h | h
        · exact hkey h.symm
        · exact hk h
    case isFalse hc =>
      by_cases hx : note_norm x = ""
      · rw [if_neg (by simp [hx])]
        exact ih seen k hk
      · have hseen : pyLower (note_norm x) ∈ seen := by
          by_contra hns
          exact hc ⟨hx, hns⟩
        have hkey : pyLower (note_norm x) ≠ k := fun hEq => hk (hEq ▸ hseen)
        rw [if_pos (by simpa using hx), List.find?_cons_of_neg _ (by simpa using hkey)]
        exact ih _ _ hk

/-- Claim C6: the cleaned output of `_clean_list` has no two entries that are
case-insensitively equal, is (in order) a sub-sequence of the normalized
input, and for every case-insensitive key its entry is the first normalized
non-empty input entry with that key — i.e. first-seen order is preserved. -/
theorem claim_C6_clean_list_dedup (xs : List String) :
    ((clean_list xs).Pairwise fun a b => pyLower a ≠ pyLower b) ∧
    (clean_list xs).Sublist (xs.map note_norm) ∧
    ∀ k : String, (clean_list xs).find? (fun a => pyLower a == k) =
      ((xs.map note_norm).filter (· != "")).find? (fun a => pyLower a == k) :=
  ⟨clean_list_go_pairwise xs [], clean_list_go_sublist xs [],
    fun k => clean_list_go_find xs [] k (by simp)⟩

theorem clean_list_ne (xs : List String) : ∀ a ∈ clean_list xs, a ≠ "" :=
  fun a h => clean_list_go_ne xs [] a h

theorem clean_listJ_ne (xs : List JVal) : ∀ a ∈ clean_listJ xs, a ≠ "" :=
  fun a h => clean_list_ne _ a h

theorem nil_ne : ∀ a ∈ ([] : List String), a ≠ "" := by simp

theorem emptyNotes_ne : notesNe emptyNotes := ⟨nil_ne, nil_ne, nil_ne⟩

theorem parse_notes_cat_go_ne (parts : List String) : ∀ acc : Notes,
    notesNe acc → notesNe (parse_notes_cat_go acc parts) := by
  induction parts with
  | nil => intro acc h; simpa [parse_notes_cat_go] using h
  | cons part rest ih =>
    intro acc h
    simp only [parse_notes_cat_go]
    split
    · split
      · exact ih _ ⟨fun a ha => clean_list_ne _ a ha, h.2.1, h.2.2⟩
      · split
        · exact ih _ ⟨h.1, h.2.1, fun a ha => clean_list_ne _ a ha⟩
        · exact ih _ ⟨h.1, fun a ha => clean_list_ne _ a ha, h.2.2⟩
    · exact ih _ h

theorem parseNotesCatFlat_ne (s : String) : notesNe (parseNotesCatFlat s) := by
  unfold parseNotesCatFlat
  split
  · exact parse_notes_cat_go_ne _ _ emptyNotes_ne
  · exact ⟨nil_ne, fun a ha => clean_list_ne _ a ha, nil_ne⟩

theorem parse_notes_step_ne (jp : String → Option JVal) (recurse : JVal → Notes)
    (hrec : ∀ w, notesNe (recurse w)) :
    ∀ raw, notesNe (parse_notes_step jp recurse raw) := by
  intro raw
  cases raw with
  | jnull => exact emptyNotes_ne
  | jbool b => exact emptyNotes_ne
  | jint n => exact emptyNotes_ne
  | jobj kvs => exact ⟨clean_listJ_ne _, clean_listJ_ne _, clean_listJ_ne _⟩
  | jarr xs =>
    cases h : maybe_parse_embedded jp xs with
    | none =>
      have heq : parse_notes_step jp recurse (.jarr xs) = ⟨[], clean_listJ xs, []⟩ := by
        simp [parse_notes_step, h]
      rw [heq]
      exact ⟨nil_ne, clean_listJ_ne _, nil_ne⟩
    | some w =>
      cases w <;> simp only [parse_notes_step, h] <;>
        first
        | exact hrec _
        | exact ⟨nil_ne, clean_listJ_ne _, nil_ne⟩
  | jstr s0 =>
    by_cases hs : pyStrip s0 = ""
    · have heq : parse_notes_step jp recurse (.jstr s0) = emptyNotes := by
        simp [parse_notes_step, hs]
      rw [heq]
      exact emptyNotes_ne
    · cases h : (if jsonLikeShape (pyStrip s0) then jp (pyStrip s0) else none) with
      | none =>
        have heq : parse_notes_step jp recurse (.jstr s0) = parseNotesCatFlat (pyStrip s0) := by
          simp [parse_notes_step, hs, h]
        rw [heq]
        exact parseNotesCatFlat_ne _
      | some v =>
        have heq : parse_notes_step jp recurse (.jstr s0) = recurse v := by
          simp [parse_notes_step, hs, h]
        rw [heq]
        exact hrec v

theorem parse_notes_ne (jp : String → Option JVal) :
    ∀ (fuel : Nat) (v : JVal), notesNe (parse_notes jp fuel v) := by
  intro fuel
  induction fuel with
  | zero => exact parse_notes_step_ne jp _ fun _ => emptyNotes_ne
  | succ f ihf => exact parse_notes_step_ne jp _ ihf

theorem parse_main_accords_step_ne (jp : String → Option JVal)
    (recurse : JVal → List String) (hrec : ∀ w, ∀ a ∈ recurse w, a ≠ "") :
    ∀ raw, ∀ a ∈ parse_main_accords_step jp recurse raw, a ≠ "" := by
  intro raw
  cases raw with
  | jnull => exact nil_ne
  | jbool b => exact nil_ne
  | jint n => exact nil_ne
  | jobj kvs => exact clean_listJ_ne _
  | jarr xs => exact clean_listJ_ne _
  | jstr s0 =>
    by_cases hs : pyStrip s0 = ""
    · have heq : parse_main_accords_step jp recurse (.jstr s0) = [] := by
        simp [parse_main_accords_step, hs]
      rw [heq]
      exact nil_ne
    · cases h : (if jsonLikeShape (pyStrip s0) then jp (pyStrip s0) else none) with
      | none =>
        have heq : parse_main_accords_step jp recurse (.jstr s0) =
            clean_list ((splitSepWs (fun c => c = '|' || c = ',') (pyStrip s0).data).filter
              fun p => pyStrip p ≠ "") := by
          simp [parse_main_accords_step, hs, h]
        rw [heq]
        exact clean_list_ne _
      | some v =>
        have heq : parse_main_accords_step jp recurse (.jstr s0) = recurse v := by
          simp [parse_main_accords_step, hs, h]
        rw [heq]
        exact hrec v

theorem parse_main_accords_ne (jp : String → Option JVal) :
    ∀ (fuel : Nat) (v : JVal), ∀ a ∈ parse_main_accords jp fuel v, a ≠ "" := by
  intro fuel
  induction fuel with
  | zero => exact parse_main_accords_step_ne jp _ fun _ => nil_ne
  | succ f ihf => exact parse_main_accords_step_ne jp _ ihf

/-- Claim C10: every string in any emitted notes bucket or main-accords list
is non-empty, for every input shape and every JSON decoder: items whose
canonicalized form is empty are dropped by `_clean_list` in every operation
that produces these lists. -/
theorem claim_C10_nonempty_entries (jp : String → Option JVal) (fuel : Nat) (v : JVal) :
    (∀ a ∈ (parse_notes jp fuel v).top, a ≠ "") ∧
    (∀ a ∈ (parse_notes jp fuel v).middle, a ≠ "") ∧
    (∀ a ∈ (parse_notes jp fuel v).base, a ≠ "") ∧
    (∀ a ∈ parse_main_accords jp fuel v, a ≠ "") :=
  ⟨(parse_notes_ne jp fuel v).1, (parse_notes_ne jp fuel v).2.1,
    (parse_notes_ne jp fuel v).2.2, parse_main_accords_ne jp fuel v⟩

/-! ### claim C2: the inclusion policy -/

/-- Claim C2: with the `keep_unnamed` override unset, a raw record is dropped
if and only if its extracted name and brand are empty, all three parsed notes
buckets are empty, and the parsed main accords list is empty; with the
override set, every record is kept. -/
theorem claim_C2_inclusion_policy (jp : String → Option JVal) (fuel : Nat)
    (p : List (String × JVal)) :
    (cleanStep jp fuel false p = none ↔
      (best_name p = "" ∧ best_brand p = "" ∧
        (parse_notes jp fuel (jget2 p "notes" "accords" (.jarr []))).top = [] ∧
        (parse_notes jp fuel (jget2 p "notes" "accords" (.jarr []))).middle = [] ∧
        (parse_notes jp fuel (jget2 p "notes" "accords" (.jarr []))).base = [] ∧
        parse_main_accords jp fuel (jget2 p "main_accords" "accords" (.jarr [])) = [])) ∧
    (cleanStep jp fuel true p).isSome = true := by
  constructor
  · simp only [cleanStep]
    split
    case isTrue hc =>
      split
      case isTrue hc2 =>
        have hne := hc2.2.1
        push_neg at hne
        exact iff_of_true rfl
          ⟨hc.2, hc2.1, hne.1, hne.2.1, hne.2.2, hc2.2.2⟩
      case isFalse hc2 =>
        refine iff_of_false (by simp) ?_
        intro hrhs
        exact hc2 ⟨hrhs.2.1, by
          push_neg
          exact ⟨hrhs.2.2.1, hrhs.2.2.2.1, hrhs.2.2.2.2.1⟩, hrhs.2.2.2.2.2⟩
    case isFalse hc =>
      refine iff_of_false (by simp) ?_
      intro hrhs
      exact hc ⟨by simp, hrhs.1⟩
  · simp [cleanStep]

/-! ### claims C9 and C3: `_normalize_counts` -/

theorem lookup_updateAssoc (k : String) (v : Int) (k' : String) :
    ∀ m : List (String × Int),
    (updateAssoc m k v).lookup k' = if k' = k then some v else m.lookup k' := by
  intro m
  induction m with
  | nil =>
    by_cases h : k' = k
    · simp [updateAssoc, List.lookup, h]
    · have hb : (k' == k) = false := by simp [h]
      simp [updateAssoc, List.lookup, h, hb]
  | cons kv rest ih =>
    obtain ⟨k0, v0⟩ := kv
    simp only [updateAssoc]
    by_cases h0 : k0 = k
    · rw [if_pos h0]
      by_cases h' : k' = k0
      · have hb : (k' == k0) = true := by simp [h']
        simp [List.lookup, hb, h'.trans h0, h0]
      · have hb : (k' == k0) = false := by simp [h']
        have h'' : ¬ k' = k := fun hEq => h' (hEq.trans h0.symm)
        simp [List.lookup, hb, h'']
    · rw [if_neg h0]
      by_cases h' : k' = k0
      · have hb : (k' == k0) = true := by simp [h']
        have h'' : ¬ k' = k := fun hEq => h0 (h'.symm.trans hEq)
        simp [List.lookup, hb, h'']
      · have hb : (k' == k0) = false := by simp [h']
        simp [List.lookup, hb, ih]

theorem normalize_counts_go_lookup (d : List (String × JVal)) :
    ∀ (out : List (String × Int)) (nk : String),
    (normalize_counts_go out d).lookup nk =
      ((d.filter fun kv => normKeyLon kv.1 == some nk).getLast?).elim
        (out.lookup nk) (fun kv => some (coerceCount kv.2)) := by
  induction d with
  | nil => intro out nk; simp [normalize_counts_go]
  | cons kv rest ih =>
    intro out nk
    obtain ⟨k, v⟩ := kv
    cases hnk : normKeyLon k with
    | none =>
      have hgo : normalize_counts_go out ((k, v) :: rest) = normalize_counts_go out rest := by
        simp [normalize_counts_go, hnk]
      have hfil : ((k, v) :: rest).filter (fun kv => normKeyLon kv.1 == some nk) =
          rest.filter (fun kv => normKeyLon kv.1 == some nk) := by
        simp [List.filter_cons, hnk]
      rw [hgo, hfil]
      exact ih out nk
    | some nk' =>
      have hgo : normalize_counts_go out ((k, v) :: rest) =
          normalize_counts_go (updateAssoc out nk' (coerceCount v)) rest := by
        simp [normalize_counts_go, hnk]
      rw [hgo]
      by_cases heq : nk' = nk
      · subst heq
        have hfil : ((k, v) :: rest).filter (fun kv => normKeyLon kv.1 == some nk') =
            (k, v) :: rest.filter (fun kv => normKeyLon kv.1 == some nk') := by
          simp [List.filter_cons, hnk]
        rw [hfil, ih]
        rcases hfr : rest.filter (fun kv => normKeyLon kv.1 == some nk') with _ | ⟨a, l⟩
        · rw [hfr]
          simp only [List.getLast?_nil, List.getLast?_singleton, Option.elim_none,
            Option.elim_some]
          rw [lookup_updateAssoc, if_pos rfl]
        · rw [hfr, List.getLast?_cons_cons]
          rcases hg : (a :: l).getLast? with _ | kv2
          · rw [List.getLast?_eq_none_iff] at hg
            exact absurd hg (List.cons_ne_nil a l)
          · rfl
      · have hfil : ((k, v) :: rest).filter (fun kv => normKeyLon kv.1 == some nk) =
            rest.filter (fun kv => normKeyLon kv.1 == some nk) := by
          simp [List.filter_cons, hnk, heq]
        rw [hfil, ih]
        rcases hfr : (rest.filter fun kv => normKeyLon kv.1 == some nk).getLast? with _ | kv2
        · rw [hfr]
          simp only [Option.elim_none]
          rw [lookup_updateAssoc, if_neg fun hEq : nk = nk' => heq hEq.symm]
        · rw [hfr]
          rfl

/-- Claim C9: the emitted count for a longevity category is the coerced value
of the last raw key (in the mapping's insertion/iteration order) that
normalizes to that category; earlier colliding keys are overwritten, not
summed. -/
theorem claim_C9_longevity_last_wins (d : List (String × JVal)) (nk : String) :
    (normalize_counts d).lookup nk =
      ((d.filter fun kv => normKeyLon kv.1 == some nk).getLast?).map fun kv =>
        coerceCount kv.2 := by
  rw [normalize_counts, normalize_counts_go_lookup d [] nk]
  cases hg : (d.filter fun kv => normKeyLon kv.1 == some nk).getLast? with
  | none => rfl
  | some kv => rfl

/-- Claim C3 counterexample: the raw longevity mapping `{"weak": "-5"}` is
normalized to `{"weak": -5}` — a negative emitted count, so the claimed
non-negativity of every output count (and of the derived popularity, here
`-5`) fails. -/
theorem claim_C3_counterexample :
    normalize_counts [("weak", .jstr "-5")] = [("weak", -5)] ∧
      ((normalize_counts [("weak", .jstr "-5")]).map fun kv => kv.2).sum < 0 := by
  constructor
  · rfl
  · decide

theorem mem_updateAssoc (k : String) (v : Int) :
    ∀ m : List (String × Int), ∀ kv ∈ updateAssoc m k v, kv.2 = v ∨ kv ∈ m := by
  intro m
  induction m with
  | nil =>
    intro kv hkv
    rcases List.mem_singleton.mp hkv with rfl
    exact Or.inl rfl
  | cons kv0 rest ih =>
    intro kv hkv
    obtain ⟨k0, v0⟩ := kv0
    simp only [updateAssoc] at hkv
    split at hkv
    · rcases List.mem_cons.mp hkv with rfl | h
      · exact Or.inl rfl
      · exact Or.inr (List.mem_cons_of_mem _ h)
    · rcases List.mem_cons.mp hkv with rfl | h
      · exact Or.inr (List.mem_cons_self _ _)
      · rcases ih kv h with h' | h'
        · exact Or.inl h'
        · exact Or.inr (List.mem_cons_of_mem _ h')

theorem normalize_counts_go_nonneg (d : List (String × JVal))
    (hd : ∀ kv ∈ d, 0 ≤ coerceCount kv.2) :
    ∀ out : List (String × Int), (∀ kv ∈ out, 0 ≤ kv.2) →
    ∀ kv ∈ normalize_counts_go out d, 0 ≤ kv.2 := by
  induction d with
  | nil => intro out hout kv hkv; exact hout kv hkv
  | cons kv0 rest ih =>
    intro out hout kv hkv
    obtain ⟨k, v⟩ := kv0
    have hd' : ∀ kv ∈ rest, 0 ≤ coerceCount kv.2 :=
      fun kv h => hd kv (List.mem_cons_of_mem _ h)
    cases hnk : normKeyLon k with
    | none =>
      have hgo : normalize_counts_go out ((k, v) :: rest) = normalize_counts_go out rest := by
        simp [normalize_counts_go, hnk]
      rw [hgo] at hkv
      exact ih hd' out hout kv hkv
    | some nk' =>
      have hgo : normalize_counts_go out ((k, v) :: rest) =
          normalize_counts_go (updateAssoc out nk' (coerceCount v)) rest := by
        simp [normalize_counts_go, hnk]
      rw [hgo] at hkv
      refine ih hd' _ ?_ kv hkv
      intro kv' hkv'
      rcases mem_updateAssoc _ _ out kv' hkv' with h' | h'
      · rw [h']
        exact hd (k, v) (List.mem_cons_self _ _)
      · exact hout kv' h'

/-- Claim C3 amended: every emitted longevity count is an integer produced by
the `_to_int` coercion with uncoercible values becoming `0`; whenever every
raw value coerces to a non-negative integer (as digit strings and
non-negative numbers do), every emitted count and the derived popularity are
non-negative. -/
theorem claim_C3_amended_counts (d : List (String × JVal))
    (h : ∀ kv ∈ d, 0 ≤ coerceCount kv.2) :
    (∀ kv ∈ normalize_counts d, 0 ≤ kv.2) ∧
      0 ≤ ((normalize_counts d).map fun kv => kv.2).sum := by
  have hmem := normalize_counts_go_nonneg d h [] (by simp)
  refine ⟨hmem, List.sum_nonneg ?_⟩
  intro x hx
  rcases List.mem_map.mp hx with ⟨kv, hkv, rfl⟩
  exact hmem kv hkv

theorem claim_C3_amended_counts_witness :
    (∀ kv ∈ normalize_counts [("Very_Long_Lasting", JVal.jstr "1,024"), ("weak", JVal.jint 3)],
      0 ≤ kv.2) ∧
    0 ≤ ((normalize_counts
      [("Very_Long_Lasting", JVal.jstr "1,024"), ("weak", JVal.jint 3)]).map fun kv =>
        kv.2).sum :=
  claim_C3_amended_counts _ (by decide)

/-! ### claims C1 and C8: `_stable_id` -/

/-- Claim C8: a year of `0` is falsy in Python, so `{year or ''}` formats it
exactly like a missing year and the two distinct triples hash to the same
identifier. -/
theorem claim_C8_year_zero_collision (brand name : String) :
    stable_id brand name (some 0) = stable_id brand name none := rfl

theorem hexCh_mem (n : Nat) : hexCh n ∈ hexDigits := by
  by_cases hn : n < 16
  · interval_cases n <;> decide
  · rw [hexCh, List.getD_eq_default]
    · decide
    · rw [show hexDigits.length = 16 from rfl]
      exact Nat.le_of_not_lt hn

theorem stable_id_hex (b n : String) (y : Option Int) :
    ∀ c ∈ (stable_id b n y).data, c ∈ hexDigits := by
  intro c hc
  have h1 : c ∈ sha1Hex (strUtf8 (b ++ "::" ++ n ++ "::" ++ yearStr y)) :=
    List.take_subset _ _ hc
  rcases List.mem_flatten.mp h1 with ⟨l, hl, hcl⟩
  rcases List.mem_map.mp hl with ⟨w, _, rfl⟩
  simp only [wordHex, List.mem_cons, List.not_mem_nil, or_false] at hcl
  rcases hcl with rfl | rfl | rfl | rfl | rfl | rfl | rfl | rfl <;> exact hexCh_mem _

set_option maxRecDepth 200000 in
/-- Claim C1: `_stable_id` is a pure function of the (brand, name, year)
triple — determinism is by construction in this model, whose SHA-1 mirrors
the hash the code computes — its output is always a 16-character
lowercase-hex string, and the spec's example inputs from 2015 and 2016 give
different identifiers. -/
theorem claim_C1_stable_id_hex16 :
    (∀ (b n : String) (y : Option Int), (stable_id b n y).length = 16 ∧
      ∀ c ∈ (stable_id b n y).data, c ∈ hexDigits) ∧
    stable_id "Dior" "Sauvage" (some 2015) ≠ stable_id "Dior" "Sauvage" (some 2016) := by
  refine ⟨fun b n y => ⟨rfl, stable_id_hex b n y⟩, ?_⟩
  decide

/-! ### claim C4: `_titleish` -/

theorem segMapL_nil : segMapL [] = [] := by decide

theorem segMapL_sep (c : Char) (h : c = '-' ∨ c = '/') : segMapL [c] = [c] := by
  rcases h with rfl | rfl <;> decide

theorem map_id_of_all (f : Char → Char) : ∀ l : List Char, (∀ x ∈ l, f x = x) → l.map f = l := by
  intro l h
  induction l with
  | nil => rfl
  | cons c rest ih =>
    rw [List.map_cons, h c (List.mem_cons_self _ _),
      ih fun x hx => h x (List.mem_cons_of_mem _ hx)]

theorem pyLowerCh_ws (c : Char) (h : isWsPy c = true) : pyLowerCh c = c := by
  have hmem : c ∈ wsChars := by simpa [isWsPy] using h
  fin_cases hmem <;> decide

theorem pyUpperCh_ws (c : Char) (h : isWsPy c = true) : pyUpperCh c = c := by
  have hmem : c ∈ wsChars := by simpa [isWsPy] using h
  fin_cases hmem <;> decide

theorem smallWords_not_ws (c : Char) (rest : List Char) (hc : isWsPy c = true) :
    smallWords.contains ⟨c :: rest⟩ = false := by
  have hmem : c ∈ wsChars := by simpa [isWsPy] using hc
  fin_cases hmem <;> rfl

theorem segMapL_allWs (l : List Char) (h : ∀ w ∈ l, isWsPy w = true) : segMapL l = l := by
  cases l with
  | nil => exact segMapL_nil
  | cons c rest =>
    have hc : isWsPy c = true := h c (List.mem_cons_self _ _)
    have hmap : (c :: rest).map pyLowerCh = c :: rest :=
      map_id_of_all pyLowerCh _ fun x hx => pyLowerCh_ws x (h x hx)
    simp only [segMapL, hmap, smallWords_not_ws c rest hc, Bool.false_eq_true, if_false]
    rw [pyUpperCh_ws c hc]

theorem titleAmendGo_ws_run (run : List Char) (hrun : ∀ w ∈ run, isWsPy w = true)
    (rest : List Char) :
    titleAmendGo [] (run ++ rest) = run ++ titleAmendGo [] rest := by
  induction run with
  | nil => simp
  | cons w run2 ih =>
    have hw : isWsPy w = true := hrun w (List.mem_cons_self _ _)
    have hb : isBoundaryCh w = true := by simp [isBoundaryCh, hw]
    simp only [List.cons_append, titleAmendGo, hb, if_true, segMapL_nil, List.append_eq]
    rw [ih fun x hx => hrun x (List.mem_cons_of_mem _ hx)]
    simp

theorem reSplitKeepGo_amend (cs : List Char) :
    (∀ buf, ((reSplitKeepGo false buf cs).map fun p => segMapL p.data).flatten =
      titleAmendGo buf cs) ∧
    (∀ buf, (∀ w ∈ buf, isWsPy w = true) →
      ((reSplitKeepGo true buf cs).map fun p => segMapL p.data).flatten =
        buf ++ titleAmendGo [] cs) := by
  induction cs with
  | nil =>
    constructor
    · intro buf
      simp [reSplitKeepGo, titleAmendGo]
    · intro buf hbuf
      simp [reSplitKeepGo, titleAmendGo, segMapL_nil, segMapL_allWs buf hbuf]
  | cons c rest ih =>
    obtain ⟨ihA, ihB⟩ := ih
    constructor
    · intro buf
      by_cases hd : c = '-' ∨ c = '/'
      · have hb : isBoundaryCh c = true := by
          rcases hd with rfl | rfl <;> rfl
        simp only [reSplitKeepGo, titleAmendGo, hd, hb, if_true, Bool.false_eq_true, if_false,
          List.map_cons, List.flatten_cons]
        rw [segMapL_sep c hd, ihA []]
        simp
      · by_cases hw : isWsPy c = true
        · have hb : isBoundaryCh c = true := by simp [isBoundaryCh, hw]
          simp only [reSplitKeepGo, titleAmendGo, hd, hw, hb, if_true, if_false,
            Bool.false_eq_true, List.map_cons, List.flatten_cons]
          rw [ihB [c] (by intro w hw'; rw [List.mem_singleton] at hw'; rw [hw']; exact hw)]
          simp
        · rcases not_or.mp hd with ⟨h1, h2⟩
          have hb : isBoundaryCh c = false := by simp [isBoundaryCh, h1, h2, hw]
          simp only [reSplitKeepGo, titleAmendGo, hd, hw, hb, Bool.false_eq_true, if_false]
          exact ihA (buf ++ [c])
    · intro buf hbuf
      by_cases hw : isWsPy c = true
      · have hb : isBoundaryCh c = true := by simp [isBoundaryCh, hw]
        simp only [reSplitKeepGo, titleAmendGo, hw, hb, if_true]
        rw [ihB (buf ++ [c]) (by
          intro w hw'
          rcases List.mem_append.mp hw' with h | h
          · exact hbuf w h
          · rw [List.mem_singleton] at h
            rw [h]
            exact hw)]
        simp [segMapL_nil]
      · by_cases hd : c = '-' ∨ c = '/'
        · have hb : isBoundaryCh c = true := by
            rcases hd with rfl | rfl <;> rfl
          simp only [reSplitKeepGo, titleAmendGo, hw, hd, hb, if_true, Bool.false_eq_true,
            if_false, List.map_cons, List.flatten_cons]
          rw [segMapL_allWs buf hbuf, segMapL_sep c hd, ihA []]
          simp [segMapL_nil]
        · rcases not_or.mp hd with ⟨h1, h2⟩
          have hb : isBoundaryCh c = false := by simp [isBoundaryCh, h1, h2, hw]
          simp only [reSplitKeepGo, titleAmendGo, hw, hd, hb, Bool.false_eq_true, if_false,
            if_true, List.map_cons, List.flatten_cons]
          rw [segMapL_allWs buf hbuf, ihA [c]]
          simp

/-- Claim C4 amended: `titleCase` strips the input, splits it on
whitespace/hyphen/slash boundaries keeping the boundary characters, replaces
a segment whose lowercased form is a small word by that lowercase form, and
otherwise uppercases only the segment's first character, leaving the rest of
the segment in its original case (it does not lowercase the segment);
empty input is returned unchanged. -/
theorem claim_C4_amended_titleish (s : String) : titleish s = titleCase_amended s := by
  unfold titleish titleCase_amended
  by_cases hs : s = ""
  · rw [if_pos hs, if_pos hs]
  · rw [if_neg hs, if_neg hs]
    exact congrArg String.mk ((reSplitKeepGo_amend (pyStrip s).data).1 [])

/-- Claim C4 counterexample: on `"hELLO"` the code returns `"HELLO"` (it
only uppercases the first character and keeps the remainder's case), while
the claimed lowercase-then-capitalize behaviour would return `"Hello"`. -/
theorem claim_C4_counterexample :
    titleish "hELLO" = "HELLO" ∧ titleCase_claimed "hELLO" = "Hello" ∧
      titleish "hELLO" ≠ titleCase_claimed "hELLO" := by
  refine ⟨by decide, by decide, by decide⟩

/-! ### claim C5: categorized notes strings -/

theorem getLast?_cons_elim {α β : Type*} (a : α) (l : List α) (b : β) (f : α → β) :
    ((a :: l).getLast?).elim b f = (l.getLast?).elim (f a) f := by
  cases l with
  | nil => rfl
  | cons x xs =>
    rw [List.getLast?_cons_cons]
    cases h : (x :: xs).getLast? with
    | none =>
      rw [List.getLast?_eq_none_iff] at h
      exact absurd h (List.cons_ne_nil _ _)
    | some y => rfl

theorem lastSegFor_cons (sel : String → Bool) (part : String) (rest : List String)
    (b : List String) :
    (lastSegFor sel (part :: rest)).elim b segItems =
      (if ':' ∈ part.data ∧ sel (pyLower (pyStrip (splitColon1 part).1)) = true then
        (lastSegFor sel rest).elim (segItems (splitColon1 part).2) segItems
      else (lastSegFor sel rest).elim b segItems) := by
  by_cases hcol : ':' ∈ part.data
  · by_cases hsel : sel (pyLower (pyStrip (splitColon1 part).1)) = true
    · rw [if_pos ⟨hcol, hsel⟩]
      have h1 : lastSegFor sel (part :: rest) =
          ((splitColon1 part).2 ::
            (rest.filterMap fun q =>
              if ':' ∈ q.data then
                (if sel (pyLower (pyStrip (splitColon1 q).1)) then some (splitColon1 q).2
                 else none)
              else none)).getLast? := by
        simp only [lastSegFor, List.filterMap_cons, if_pos hcol, if_pos hsel]
      rw [h1, getLast?_cons_elim]
      rfl
    · rw [if_neg fun h => hsel h.2]
      have h1 : lastSegFor sel (part :: rest) = lastSegFor sel rest := by
        simp only [lastSegFor, List.filterMap_cons, if_pos hcol, if_neg hsel]
      rw [h1]
  · rw [if_neg fun h => hcol h.1]
    have h1 : lastSegFor sel (part :: rest) = lastSegFor sel rest := by
      simp only [lastSegFor, List.filterMap_cons, if_neg hcol]
    rw [h1]

theorem parse_notes_cat_go_last (parts : List String) : ∀ acc : Notes,
    (parse_notes_cat_go acc parts).top = (lastSegFor selTop parts).elim acc.top segItems ∧
    (parse_notes_cat_go acc parts).middle = (lastSegFor selMid parts).elim acc.middle segItems ∧
    (parse_notes_cat_go acc parts).base = (lastSegFor selBase parts).elim acc.base segItems := by
  induction parts with
  | nil => intro acc; exact ⟨rfl, rfl, rfl⟩
  | cons part rest ih =>
    intro acc
    by_cases hcol : ':' ∈ part.data
    · by_cases htop : catIsTop (pyLower (pyStrip (splitColon1 part).1)) = true
      · have hgo : parse_notes_cat_go acc (part :: rest) =
            parse_notes_cat_go { acc with top := segItems (splitColon1 part).2 } rest := by
          simp [parse_notes_cat_go, hcol, htop]
        rw [hgo]
        refine ⟨?_, ?_, ?_⟩
        · rw [lastSegFor_cons, if_pos ⟨hcol, by simpa [selTop] using htop⟩]
          exact (ih _).1
        · rw [lastSegFor_cons, if_neg fun h => by simp [selMid, htop] at h]
          exact (ih _).2.1
        · rw [lastSegFor_cons, if_neg fun h => by simp [selBase, htop] at h]
          exact (ih _).2.2
      · by_cases hbase : catIsBase (pyLower (pyStrip (splitColon1 part).1)) = true
        · have hgo : parse_notes_cat_go acc (part :: rest) =
              parse_notes_cat_go { acc with base := segItems (splitColon1 part).2 } rest := by
            simp [parse_notes_cat_go, hcol, htop, hbase]
          rw [hgo]
          refine ⟨?_, ?_, ?_⟩
          · rw [lastSegFor_cons, if_neg fun h => by simp [selTop, htop] at h]
            exact (ih _).1
          · rw [lastSegFor_cons, if_neg fun h => by simp [selMid, hbase] at h]
            exact (ih _).2.1
          · rw [lastSegFor_cons,
              if_pos ⟨hcol, by simp [selBase, htop, hbase]⟩]
            exact (ih _).2.2
        · have hgo : parse_notes_cat_go acc (part :: rest) =
              parse_notes_cat_go { acc with middle := segItems (splitColon1 part).2 } rest := by
            simp [parse_notes_cat_go, hcol, htop, hbase]
          rw [hgo]
          refine ⟨?_, ?_, ?_⟩
          · rw [lastSegFor_cons, if_neg fun h => by simp [selTop, htop] at h]
            exact (ih _).1
          · rw [lastSegFor_cons,
              if_pos ⟨hcol, by simp [selMid, htop, hbase]⟩]
            exact (ih _).2.1
          · rw [lastSegFor_cons, if_neg fun h => by simp [selBase, hbase] at h]
            exact (ih _).2.2
    · have hgo : parse_notes_cat_go acc (part :: rest) = parse_notes_cat_go acc rest := by
        simp [parse_notes_cat_go, hcol]
      rw [hgo]
      refine ⟨?_, ?_, ?_⟩
      · rw [lastSegFor_cons, if_neg fun h => hcol h.1]
        exact (ih _).1
      · rw [lastSegFor_cons, if_neg fun h => hcol h.1]
        exact (ih _).2.1
      · rw [lastSegFor_cons, if_neg fun h => hcol h.1]
        exact (ih _).2.2

/-- Claim C5 amended: for a string whose stripped form contains both `:` and
`|` and is not JSON-shaped, `_parse_notes` splits it on `|` into parts,
classifies each colon-containing part by prefix of its category
(top/head, base/drydown, else middle), and each bucket ends up holding the
cleaned comma-separated items of the LAST part classified to it (the
assignment overwrites earlier parts for the same bucket), empty if no part
selects it; the spec's example parses as claimed. -/
theorem claim_C5_amended_categorized (jp : String → Option JVal) (fuel : Nat) (s : String)
    (h1 : ':' ∈ (pyStrip s).data) (h2 : '|' ∈ (pyStrip s).data)
    (h3 : jsonLikeShape (pyStrip s) = false) :
    (parse_notes jp fuel (.jstr s)).top = bucketLast selTop (pyStrip s) ∧
    (parse_notes jp fuel (.jstr s)).middle = bucketLast selMid (pyStrip s) ∧
    (parse_notes jp fuel (.jstr s)).base = bucketLast selBase (pyStrip s) := by
  have hs : pyStrip s ≠ "" := by
    intro hEq
    rw [hEq] at h1
    simp at h1
  have hstep : ∀ recurse : JVal → Notes,
      parse_notes_step jp recurse (.jstr s) = parseNotesCatFlat (pyStrip s) := by
    intro recurse
    simp [parse_notes_step, hs, h3]
  have hflat : parseNotesCatFlat (pyStrip s) =
      parse_notes_cat_go emptyNotes (splitSepWs (· = '|') (pyStrip s).data) := by
    simp [parseNotesCatFlat, h1, h2]
  have hmain := parse_notes_cat_go_last (splitSepWs (· = '|') (pyStrip s).data) emptyNotes
  have hpn : parse_notes jp fuel (.jstr s) =
      parse_notes_cat_go emptyNotes (splitSepWs (· = '|') (pyStrip s).data) := by
    cases fuel with
    | zero =>
      rw [show parse_notes jp 0 (.jstr s) =
          parse_notes_step jp (fun _ => emptyNotes) (.jstr s) from rfl, hstep, hflat]
    | succ f =>
      rw [show parse_notes jp (f + 1) (.jstr s) =
          parse_notes_step jp (parse_notes jp f) (.jstr s) from rfl, hstep, hflat]
  rw [hpn]
  exact hmain

theorem claim_C5_amended_categorized_witness :
    (parse_notes (fun _ => none) 1 (.jstr "Top: Lemon, Bergamot | Base: Musk")).top =
        ["Lemon", "Bergamot"] ∧
    (parse_notes (fun _ => none) 1 (.jstr "Top: Lemon, Bergamot | Base: Musk")).middle = [] ∧
    (parse_notes (fun _ => none) 1 (.jstr "Top: Lemon, Bergamot | Base: Musk")).base =
        ["Musk"] := by
  have h := claim_C5_amended_categorized (fun _ => none) 1 "Top: Lemon, Bergamot | Base: Musk"
    (by decide) (by decide) (by decide)
  refine ⟨?_, ?_, ?_⟩
  · rw [h.1]; decide
  · rw [h.2.1]; decide
  · rw [h.2.2]; decide

/-- Claim C5 counterexample: in `"Top: Lemon | Head: Rose"` both segments
classify to the top bucket and the second assignment overwrites the first,
so the items of the first segment do not appear in the output — refuting
`the items of every such segment appear in the chosen bucket`. -/
theorem claim_C5_counterexample :
    (parse_notes (fun _ => none) 1 (.jstr "Top: Lemon | Head: Rose")).top = ["Rose"] ∧
    "Lemon" ∉ (parse_notes (fun _ => none) 1 (.jstr "Top: Lemon | Head: Rose")).top ∧
    (parse_notes (fun _ => none) 1 (.jstr "Top: Lemon | Head: Rose")).middle = [] ∧
    (parse_notes (fun _ => none) 1 (.jstr "Top: Lemon | Head: Rose")).base = [] := by
  refine ⟨by decide, by decide, by decide, by decide⟩

/-! ### claim C7: `_slugify` -/

theorem isSlugCh_ne_dash (c : Char) (h : isSlugCh c = true) : c ≠ '-' := by
  intro hEq
  rw [hEq] at h
  exact absurd h (by decide)

theorem subDashGo_charset : ∀ (l : List Char) (flag : Bool),
    ∀ c ∈ subDashGo flag l, isSlugCh c = true ∨ c = '-' := by
  intro l
  induction l with
  | nil => intro flag c hc; simp [subDashGo] at hc
  | cons a rest ih =>
    intro flag c hc
    by_cases ha : isSlugCh a = true
    · rw [show subDashGo flag (a :: rest) = a :: subDashGo false rest by
        simp [subDashGo, ha]] at hc
      rcases List.mem_cons.mp hc with rfl | hc
      · exact Or.inl ha
      · exact ih false c hc
    · cases flag with
      | true =>
        rw [show subDashGo true (a :: rest) = subDashGo true rest by
          simp [subDashGo, ha]] at hc
        exact ih true c hc
      | false =>
        rw [show subDashGo false (a :: rest) = '-' :: subDashGo true rest by
          simp [subDashGo, ha]] at hc
        rcases List.mem_cons.mp hc with rfl | hc
        · exact Or.inr rfl
        · exact ih true c hc

theorem subDashGo_filter : ∀ (l : List Char) (flag : Bool),
    (subDashGo flag l).filter isSlugCh = l.filter isSlugCh := by
  intro l
  induction l with
  | nil => intro flag; simp [subDashGo]
  | cons a rest ih =>
    intro flag
    by_cases ha : isSlugCh a = true
    · rw [show subDashGo flag (a :: rest) = a :: subDashGo false rest by
        simp [subDashGo, ha]]
      simp [List.filter_cons, ha, ih false]
    · have hfa : isSlugCh a = false := by simpa using ha
      cases flag with
      | true =>
        rw [show subDashGo true (a :: rest) = subDashGo true rest by simp [subDashGo, ha]]
        simp [List.filter_cons, hfa, ih true]
      | false =>
        rw [show subDashGo false (a :: rest) = '-' :: subDashGo true rest by
          simp [subDashGo, ha]]
        simp [List.filter_cons, hfa, ih true, show isSlugCh '-' = false from by decide]

theorem subDashGo_true_head : ∀ l : List Char, (subDashGo true l).head? ≠ some '-' := by
  intro l
  induction l with
  | nil => simp [subDashGo]
  | cons a rest ih =>
    by_cases ha : isSlugCh a = true
    · rw [show subDashGo true (a :: rest) = a :: subDashGo false rest by simp [subDashGo, ha]]
      simp only [List.head?_cons]
      intro hEq
      exact isSlugCh_ne_dash a ha (Option.some.inj hEq)
    · rw [show subDashGo true (a :: rest) = subDashGo true rest by simp [subDashGo, ha]]
      exact ih

theorem subDashGo_chain : ∀ (l : List Char) (flag : Bool),
    (subDashGo flag l).Chain' fun a b => ¬(a = '-' ∧ b = '-') := by
  intro l
  induction l with
  | nil => intro flag; simp [subDashGo]
  | cons a rest ih =>
    intro flag
    by_cases ha : isSlugCh a = true
    · rw [show subDashGo flag (a :: rest) = a :: subDashGo false rest by simp [subDashGo, ha]]
      refine List.chain'_cons'.mpr ⟨?_, ih false⟩
      intro y _
      exact fun hand => isSlugCh_ne_dash a ha hand.1
    · cases flag with
      | true =>
        rw [show subDashGo true (a :: rest) = subDashGo true rest by simp [subDashGo, ha]]
        exact ih true
      | false =>
        rw [show subDashGo false (a :: rest) = '-' :: subDashGo true rest by
          simp [subDashGo, ha]]
        refine List.chain'_cons'.mpr ⟨?_, ih true⟩
        intro y hy
        intro hand
        exact subDashGo_true_head rest (by rw [hy, hand.2])

theorem dropWhile_isSuffix {α : Type*} (p : α → Bool) :
    ∀ l : List α, (l.dropWhile p).IsSuffix l := by
  intro l
  induction l with
  | nil => exact List.nil_suffix
  | cons a rest ih =>
    by_cases ha : p a = true
    · rw [List.dropWhile_cons_of_pos ha]
      exact ih.trans (List.suffix_cons a rest)
    · rw [List.dropWhile_cons_of_neg (by simpa using ha)]

theorem head?_dropWhile {α : Type*} (p : α → Bool) :
    ∀ (l : List α) (a : α), (l.dropWhile p).head? = some a → p a = false := by
  intro l
  induction l with
  | nil => intro a h; simp at h
  | cons x rest ih =>
    intro a h
    by_cases hx : p x = true
    · rw [List.dropWhile_cons_of_pos hx] at h
      exact ih a h
    · rw [List.dropWhile_cons_of_neg (by simpa using hx)] at h
      simp only [List.head?_cons, Option.some.injEq] at h
      rw [← h]
      simpa using hx

theorem getLast?_of_suffix {α : Type*} {z y : List α} (h : z.IsSuffix y) (hz : z ≠ []) :
    z.getLast? = y.getLast? := by
  obtain ⟨t, rfl⟩ := h
  exact (List.getLast?_append_of_ne_nil t hz).symm

theorem stripDash_subset (l : List Char) : ∀ c ∈ stripDash l, c ∈ l := by
  intro c hc
  unfold stripDash at hc
  rw [List.mem_reverse] at hc
  have h1 := (List.dropWhile_sublist (fun x => decide (x = '-'))).subset hc
  rw [List.mem_reverse] at h1
  exact (List.dropWhile_sublist _).subset h1

theorem stripDash_chain (l : List Char)
    (h : l.Chain' fun a b => ¬(a = '-' ∧ b = '-')) :
    (stripDash l).Chain' fun a b => ¬(a = '-' ∧ b = '-') := by
  unfold stripDash
  rw [List.chain'_reverse]
  have h1 : (l.dropWhile (· = '-')).Chain' fun a b => ¬(a = '-' ∧ b = '-') :=
    h.suffix (dropWhile_isSuffix _ l)
  have h2 : ((l.dropWhile (· = '-')).reverse).Chain' fun a b => ¬(a = '-' ∧ b = '-') := by
    rw [List.chain'_reverse]
    exact h1.imp fun {a b} hab hand => hab ⟨hand.2, hand.1⟩
  exact (h2.suffix (dropWhile_isSuffix _ _)).imp fun {a b} hab hand => hab ⟨hand.2, hand.1⟩

theorem stripDash_head (l : List Char) : (stripDash l).head? ≠ some '-' := by
  unfold stripDash
  intro hEq
  rw [List.head?_reverse] at hEq
  rcases hdw : ((l.dropWhile (· = '-')).reverse.dropWhile (· = '-')) with _ | ⟨a, z⟩
  · rw [hdw] at hEq
    simp at hEq
  · rw [hdw] at hEq
    have hne : (a :: z) ≠ ([] : List Char) := List.cons_ne_nil a z
    have hsuf : (a :: z).IsSuffix (l.dropWhile (· = '-')).reverse := by
      rw [← hdw]
      exact dropWhile_isSuffix _ _
    rw [getLast?_of_suffix hsuf hne, List.getLast?_reverse] at hEq
    have := head?_dropWhile (fun x => decide (x = '-')) l '-' hEq
    simp at this

theorem stripDash_getLast (l : List Char) : (stripDash l).getLast? ≠ some '-' := by
  unfold stripDash
  intro hEq
  rw [List.getLast?_reverse] at hEq
  have := head?_dropWhile (fun x => decide (x = '-')) _ '-' hEq
  simp at this

theorem filter_dropWhile_dash (l : List Char) :
    (l.dropWhile (· = '-')).filter isSlugCh = l.filter isSlugCh := by
  induction l with
  | nil => rfl
  | cons a rest ih =>
    by_cases ha : a = '-'
    · rw [List.dropWhile_cons_of_pos (by simpa using ha), ih, List.filter_cons,
        if_neg (by simp [ha]; decide)]
    · rw [List.dropWhile_cons_of_neg (by simpa using ha)]

theorem stripDash_filter (l : List Char) :
    (stripDash l).filter isSlugCh = l.filter isSlugCh := by
  unfold stripDash
  rw [List.filter_reverse, filter_dropWhile_dash, List.filter_reverse,
    filter_dropWhile_dash, List.reverse_reverse]

theorem perfume_chain :
    ("perfume" : String).data.Chain' fun a b => ¬(a = '-' ∧ b = '-') := by
  rw [show ("perfume" : String).data = ['p', 'e', 'r', 'f', 'u', 'm', 'e'] from rfl]
  refine List.chain'_cons'.mpr ⟨?_, List.chain'_cons'.mpr ⟨?_, List.chain'_cons'.mpr ⟨?_,
    List.chain'_cons'.mpr ⟨?_, List.chain'_cons'.mpr ⟨?_, List.chain'_cons'.mpr ⟨?_,
      List.chain'_singleton _⟩⟩⟩⟩⟩⟩ <;>
    · intro y hy
      simp only [List.head?_cons, Option.mem_def, Option.some.injEq] at hy
      subst hy
      decide

/-- Claim C7: `_slugify` lowercases `"brand name"`, collapses every maximal
run of non-alphanumeric characters to a single hyphen (the output consists
of lowercase alphanumerics and hyphens, never two adjacent hyphens, and
keeps exactly the alphanumeric characters of the lowercased input in order),
trims hyphens from both ends, and falls back to the literal `"perfume"`
instead of ever returning the empty string; in particular
`slugify "" "" = "perfume"`. -/
theorem claim_C7_slugify :
    (∀ brand name : String,
      slugify brand name ≠ "" ∧
      (∀ c ∈ (slugify brand name).data, isSlugCh c = true ∨ c = '-') ∧
      ((slugify brand name).data.Chain' fun a b => ¬(a = '-' ∧ b = '-')) ∧
      (slugify brand name).data.head? ≠ some '-' ∧
      (slugify brand name).data.getLast? ≠ some '-' ∧
      (((pyLower (pyStrip (brand ++ " " ++ name))).data.filter isSlugCh = [] →
          slugify brand name = "perfume") ∧
        ((pyLower (pyStrip (brand ++ " " ++ name))).data.filter isSlugCh ≠ [] →
          (slugify brand name).data.filter isSlugCh =
            (pyLower (pyStrip (brand ++ " " ++ name))).data.filter isSlugCh))) ∧
    slugify "" "" = "perfume" := by
  constructor
  · intro brand name
    have hfil : (stripDash (subDashRuns (pyLower (pyStrip (brand ++ " " ++ name))).data)).filter
        isSlugCh = (pyLower (pyStrip (brand ++ " " ++ name))).data.filter isSlugCh := by
      rw [stripDash_filter, subDashRuns, subDashGo_filter]
    by_cases hr : stripDash (subDashRuns (pyLower (pyStrip (brand ++ " " ++ name))).data) = []
    · have hslug : slugify brand name = "perfume" := by
        rw [slugify, if_pos hr]
      refine ⟨by rw [hslug]; decide, ?_, ?_, ?_, ?_, fun _ => hslug, ?_⟩
      · rw [hslug]; decide
      · rw [hslug]
        exact perfume_chain
      · rw [hslug]; decide
      · rw [hslug]; decide
      · intro hne
        exact absurd (by rw [← hfil, hr]; rfl) hne
    · have hslug : slugify brand name = ⟨stripDash
          (subDashRuns (pyLower (pyStrip (brand ++ " " ++ name))).data)⟩ := by
        rw [slugify, if_neg hr]
      have hdata : (slugify brand name).data = stripDash
          (subDashRuns (pyLower (pyStrip (brand ++ " " ++ name))).data) := by
        rw [hslug]
      refine ⟨?_, ?_, ?_, ?_, ?_, ?_, ?_⟩
      · intro hEq
        exact hr (by rw [← hdata, hEq])
      · intro c hc
        rw [hdata] at hc
        exact subDashGo_charset _ false c (stripDash_subset _ c hc)
      · rw [hdata]
        exact stripDash_chain _ (subDashGo_chain _ false)
      · rw [hdata]
        exact stripDash_head _
      · rw [hdata]
        exact stripDash_getLast _
      · intro hnil
        rw [hnil] at hfil
        rcases hd : stripDash (subDashRuns (pyLower (pyStrip (brand ++ " " ++ name))).data)
          with _ | ⟨a, z⟩
        · exact absurd hd hr
        · rcases subDashGo_charset _ false a (stripDash_subset _ a (hd ▸
            List.mem_cons_self a z)) with hsl | hdash
          · have : a ∈ List.filter isSlugCh (stripDash (subDashRuns
                (pyLower (pyStrip (brand ++ " " ++ name))).data)) := by
              rw [hd]
              exact List.mem_filter.mpr ⟨List.mem_cons_self a z, hsl⟩
            rw [hfil] at this
            simp at this
          · have := stripDash_head (subDashRuns (pyLower (pyStrip (brand ++ " " ++ name))).data)
            rw [hd, hdash] at this
            simp at this
      · intro _
        rw [hdata, hfil]
  · decide

end Frag
